import Mathlib

/-!
Shallow embedding of astatochek/gochess (two Go programs: a bubbletea TUI in
src/main.go and a plain stdin loop). The chess rules library (notnil/chess)
and the terminal widgets (bubbles textinput/viewport) are external
dependencies; they are modelled abstractly from the spec where a claim
depends on them. Terminal styling (lipgloss) is modelled at the level of
display cells: each rendered square carries its visible text (after the
Width(3)/Align(Center) padding), its background shade and its foreground
ink; ANSI escape sequences do not contribute to display width.
-/

namespace GoChess

/-- Side to move / piece ownership (chess.White, chess.Black). -/
inductive PieceColor
  | white
  | black
deriving DecidableEq, Repr

/-- The six chess piece kinds. -/
inductive PieceKind
  | king
  | queen
  | rook
  | bishop
  | knight
  | pawn
deriving DecidableEq, Repr

/-- A piece as the Go chess library exposes it: a color and a kind.
chess.NoPiece is represented by `Option.none` at use sites. -/
structure Piece where
  color : PieceColor
  kind : PieceKind
deriving DecidableEq, Repr

/-- Embeds the Go map from src/main.go lines 46-59 giving the board letter
of each of the twelve pieces (the map the source calls the piece-name map;
all entries are uppercase). -/
def pieceGlyph : Piece → String
  | ⟨.white, .king⟩ => "K"
  | ⟨.white, .queen⟩ => "Q"
  | ⟨.white, .rook⟩ => "R"
  | ⟨.white, .bishop⟩ => "B"
  | ⟨.white, .knight⟩ => "N"
  | ⟨.white, .pawn⟩ => "P"
  | ⟨.black, .king⟩ => "K"
  | ⟨.black, .queen⟩ => "Q"
  | ⟨.black, .rook⟩ => "R"
  | ⟨.black, .bishop⟩ => "B"
  | ⟨.black, .knight⟩ => "N"
  | ⟨.black, .pawn⟩ => "P"

/-- A board snapshot as `renderBoard` reads it: `board.Piece(sq)` for square
index `file + rank*8`, empty squares being `none`. -/
abbrev Board := Nat → Option Piece

/-- Background shade of a square (the lightSquare / darkSquare styles). -/
inductive SquareShade
  | light
  | dark
deriving DecidableEq, Repr

/-- Foreground ink of a square's text (the whitePiece / blackPiece styles). -/
inductive InkColor
  | whiteInk
  | blackInk
deriving DecidableEq, Repr

/-- One rendered square: visible text (3 display columns) plus the style
attributes the lipgloss escape codes encode. -/
structure Cell where
  text : String
  shade : SquareShade
  ink : InkColor
deriving DecidableEq, Repr

/-- The Width(3) / Align(Center) square style: pad the content to 3 display
columns, centering it (extra column on the right). -/
def padCenter3 (s : String) : String :=
  if 3 ≤ s.length then s
  else
    let total := 3 - s.length
    let left := total / 2
    String.mk (List.replicate left ' ') ++ s ++ String.mk (List.replicate (total - left) ' ')

/-- Square shade by parity of file+rank (src/main.go lines 313-317). -/
def squareShade (file rank : Nat) : SquareShade :=
  if (file + rank) % 2 = 0 then .dark else .light

/-- Foreground ink choice (src/main.go lines 319-323): white pieces get the
white ink, everything else (black pieces and empty squares) the black ink. -/
def pieceInk (p : Option Piece) : InkColor :=
  match p with
  | some pc => if pc.color = .white then .whiteInk else .blackInk
  | none => .blackInk

/-- One square of the rendered board (src/main.go lines 308-331): the empty
square renders a single space, an occupied square its glyph, both padded to
width 3 by the square style. -/
def renderCell (p : Option Piece) (file rank : Nat) : Cell :=
  { text := padCenter3 (match p with
      | none => " "
      | some pc => pieceGlyph pc)
    shade := squareShade file rank
    ink := pieceInk p }

/-- Visible text of the eight squares of one rank, appended left to right
as the Go loop writes them into the builder. -/
def rankCells (board : Board) (rank : Nat) : String :=
  (List.range 8).foldl
    (fun acc file => acc ++ (renderCell (board (file + rank * 8)) file rank).text) ""

/-- One rank row: rank label, the eight squares, rank label again
(src/main.go lines 306-334). -/
def rankLine (board : Board) (rank : Nat) : String :=
  toString (rank + 1) ++ " " ++ rankCells board rank ++ " " ++ toString (rank + 1)

/-- The file-label row written above and below the board
(src/main.go line 301). -/
def filesLine : String := "   a  b  c  d  e  f  g  h  "

/-- The ten written lines of the board rendering: file labels, ranks 8 down
to 1, file labels. -/
def renderBoardLines (board : Board) : List String :=
  filesLine :: (List.range 8).reverse.map (rankLine board) ++ [filesLine]

/-- The flat string `renderBoard` returns (src/main.go lines 296-340):
file labels and the eight rank rows each followed by a newline, then the
closing file labels with no trailing newline. -/
def renderBoard (board : Board) : String :=
  ((List.range 8).reverse.foldl
    (fun acc rank => acc ++ rankLine board rank ++ "\n") (filesLine ++ "\n")) ++ filesLine

/-- One iteration of the history-formatting loop (src/main.go lines
193-199): at move index `i`, position `i/2` is started with its turn number
when `i` is even, and the move is appended after a space. `List.set` and
`List.getD` mirror the Go slice indexing (all indices are in range). -/
def formatStep (a : List String) (i : Nat) (move : String) : List String :=
  let pos := i / 2
  let a := if i % 2 = 0 then a.set pos (toString (pos + 1) ++ ".") else a
  a.set pos (a.getD pos "" ++ " " ++ move)

/-- The `for i, move := range m.history` loop of updateHistoryViewport. -/
def formatLoop (a : List String) (i : Nat) : List String → List String
  | [] => a
  | move :: rest => formatLoop (formatStep a i move) (i + 1) rest

/-- The formatted turn lines built by updateHistoryViewport (src/main.go
lines 190-199): a slice of length `len/2 + 1` initialised to empty strings,
filled by the loop. -/
def formatHistory (history : List String) : List String :=
  formatLoop (List.replicate (history.length / 2 + 1) "") 0 history

/-- The full viewport content (src/main.go lines 188-205): the header, a
blank spacing line, then every formatted line followed by a newline. -/
def historyContent (history : List String) : String :=
  (formatHistory history).foldl (fun acc line => acc ++ line ++ "\n") "Game History:\n\n"

/-- Specification-level recursion computing the turn lines two moves at a
time; proved below to agree with the imperative formatting loop, and used
to reason about `formatHistory` by structural induction. -/
def pairsFrom (k : Nat) : List String → List String
  | [] => [""]
  | [m] => [toString k ++ "." ++ " " ++ m]
  | m1 :: m2 :: rest => (toString k ++ "." ++ " " ++ m1 ++ " " ++ m2) :: pairsFrom (k + 1) rest

/-- Game outcome as the rules library reports it (chess.NoOutcome,
chess.WhiteWon, chess.BlackWon, chess.Draw). -/
inductive GameOutcome
  | noOutcome
  | whiteWon
  | blackWon
  | draw
deriving DecidableEq, Repr

/-- Modelled from the spec: the rules oracle (the external notnil/chess
library, not part of this repository's sources). `apply` is game.MoveStr:
it validates a move string against a position and returns the updated
position or an error message; `outcome` is game.Outcome. -/
structure Oracle (Position : Type) where
  apply : Position → String → Except String Position
  outcome : Position → GameOutcome

/-- Modelled from the spec: the move-input field (the external bubbles
textinput widget, not part of this repository's sources) — a mutable
string of at most `charLimit` characters. -/
structure TextInput where
  value : String
  charLimit : Nat
deriving DecidableEq, Repr

/-- Modelled from the spec: a character keystroke appends to the buffer,
bounded by the character limit. -/
def TextInput.push (ti : TextInput) (c : Char) : TextInput :=
  if ti.value.length < ti.charLimit then { ti with value := ti.value.push c } else ti

/-- Modelled from the spec: backspace truncates the buffer by one
character; on an empty buffer it leaves it empty. -/
def TextInput.backspace (ti : TextInput) : TextInput :=
  { ti with value := String.mk ti.value.data.dropLast }

/-- The widget's Reset: clear the buffer (src/main.go line 166). -/
def TextInput.reset (ti : TextInput) : TextInput :=
  { ti with value := "" }

/-- The messages the Update handler distinguishes (src/main.go lines
118-179): window resize, the named keys, and printable characters (which
fall through to the text input). -/
inductive Msg
  | windowSize (w h : Nat)
  | keyCtrlC
  | keyEsc
  | keyEnter
  | keyUp
  | keyDown
  | keyPgUp
  | keyPgDown
  | keyChar (c : Char)
  | keyBackspace
deriving DecidableEq

/-- The TUI model (src/main.go lines 81-89), parametric in the rules
oracle's position type. The viewport is modelled by its content string; its
pixel geometry and scroll offset belong to the external widget. -/
structure Model (Position : Type) where
  pos : Position
  error : Option String
  width : Nat
  height : Nat
  textInput : TextInput
  viewportContent : String
  history : List String

/-- initialModel (src/main.go lines 91-106): fresh game, character limit 4,
empty history. -/
def initialModel {P : Type} (start : P) : Model P :=
  { pos := start
    error := none
    width := 0
    height := 0
    textInput := { value := "", charLimit := 4 }
    viewportContent := "Game History:\n"
    history := [] }

/-- model.Update (src/main.go lines 112-185). Enter submits the buffer to
the oracle: on failure only the error field changes; on success the error
is cleared, the buffer reset, the move appended to the history and the
viewport content rebuilt. Resize stores the dimensions and rebuilds the
viewport content. Scroll keys go to the viewport (scroll offset not
modelled) and to the text input, which ignores them; quit keys return the
model unchanged (with a Quit command). Character and backspace keys go to
the text input. -/
def update {P : Type} (o : Oracle P) (m : Model P) : Msg → Model P
  | .windowSize w h =>
      { m with width := w, height := h, viewportContent := historyContent m.history }
  | .keyCtrlC => m
  | .keyEsc => m
  | .keyEnter =>
      match o.apply m.pos m.textInput.value with
      | .error e => { m with error := some e }
      | .ok p2 =>
          { m with pos := p2
                   error := none
                   textInput := m.textInput.reset
                   history := m.history ++ [m.textInput.value]
                   viewportContent := historyContent (m.history ++ [m.textInput.value]) }
  | .keyUp => m
  | .keyDown => m
  | .keyPgUp => m
  | .keyPgDown => m
  | .keyChar c => { m with textInput := m.textInput.push c }
  | .keyBackspace => { m with textInput := m.textInput.backspace }

/-- The event loop: fold update over a list of incoming messages. -/
def run {P : Type} (o : Oracle P) (m : Model P) : List Msg → Model P
  | [] => m
  | msg :: rest => run o (update o m msg) rest

/-- Whether one message is an accepted (non-errored) submission in the
given state: an Enter whose buffer the oracle accepts. -/
def isAccepted {P : Type} (o : Oracle P) (m : Model P) : Msg → Bool
  | .keyEnter =>
      match o.apply m.pos m.textInput.value with
      | .ok _ => true
      | .error _ => false
  | _ => false

/-- Number of accepted submissions along a message trace. -/
def acceptedCount {P : Type} (o : Oracle P) (m : Model P) : List Msg → Nat
  | [] => 0
  | msg :: rest =>
      (if isAccepted o m msg then 1 else 0) + acceptedCount o (update o m msg) rest

/-- The stdin variant's main loop (second program, lines 377-399): while the
outcome is ongoing, read a line, trim it, and submit it to the oracle; an
invalid move leaves the game unchanged and continues; when the input is
exhausted or the outcome turns terminal, the loop stops and the final
position is returned. -/
def runStdin {P : Type} (o : Oracle P) (g : P) : List String → P
  | [] => g
  | line :: rest =>
      if o.outcome g = .noOutcome then
        match o.apply g line.trim with
        | .ok g2 => runStdin o g2 rest
        | .error _ => runStdin o g rest
      else g

/-! ### Lemmas about the history formatter -/

theorem set_append_length {α : Type} (done : List α) (x v : α) (l : List α) :
    (done ++ x :: l).set done.length v = done ++ v :: l := by
  induction done with
  | nil => rfl
  | cons a as ih => simp [List.set, ih]

theorem getD_append_length {α : Type} (done : List α) (x d : α) (l : List α) :
    (done ++ x :: l).getD done.length d = x := by
  induction done with
  | nil => rfl
  | cons a as ih => simpa using ih

theorem formatStep_even (done : List String) (x m : String) (l : List String) :
    formatStep (done ++ x :: l) (2 * done.length) m
      = done ++ (toString (done.length + 1) ++ "." ++ " " ++ m) :: l := by
  have hpos : 2 * done.length / 2 = done.length := by omega
  have hmod : 2 * done.length % 2 = 0 := by omega
  simp only [formatStep, hpos, hmod, if_pos]
  rw [set_append_length, getD_append_length, set_append_length]

theorem formatStep_odd (done : List String) (x m : String) (l : List String) :
    formatStep (done ++ x :: l) (2 * done.length + 1) m = done ++ (x ++ " " ++ m) :: l := by
  have hpos : (2 * done.length + 1) / 2 = done.length := by omega
  have hmod : (2 * done.length + 1) % 2 = 1 := by omega
  simp only [formatStep, hpos, hmod]
  rw [if_neg (by omega), getD_append_length, set_append_length]

theorem formatLoop_eq_pairsFrom :
    ∀ (ms done : List String),
      formatLoop (done ++ List.replicate (ms.length / 2 + 1) "") (2 * done.length) ms
        = done ++ pairsFrom (done.length + 1) ms
  | [], done => by simp [formatLoop, pairsFrom]
  | [m], done => by
      have h1 : List.replicate (([m] : List String).length / 2 + 1) "" = [""] := by simp
      rw [h1, formatLoop, formatLoop, formatStep_even, pairsFrom]
  | m1 :: m2 :: rest, done => by
      have hlen : (m1 :: m2 :: rest).length / 2 + 1 = rest.length / 2 + 1 + 1 := by
        simp only [List.length_cons]
        omega
      rw [hlen, List.replicate_succ, formatLoop, formatStep_even, formatLoop]
      have h2 : 2 * done.length + 1 = 2 * done.length + 1 := rfl
      rw [formatStep_odd]
      have h3 : 2 * done.length + 1 + 1 = 2 * (done ++ [toString (done.length + 1) ++ "."
          ++ " " ++ m1 ++ " " ++ m2]).length := by
        simp
        omega
      have h4 : done ++ (toString (done.length + 1) ++ "." ++ " " ++ m1 ++ " " ++ m2)
            :: List.replicate (rest.length / 2 + 1) ""
          = (done ++ [toString (done.length + 1) ++ "." ++ " " ++ m1 ++ " " ++ m2])
            ++ List.replicate (rest.length / 2 + 1) "" := by
        simp
      rw [h3, h4, formatLoop_eq_pairsFrom rest]
      simp [pairsFrom]

theorem formatHistory_eq_pairsFrom (h : List String) : formatHistory h = pairsFrom 1 h := by
  have h0 := formatLoop_eq_pairsFrom h []
  simpa [formatHistory] using h0

theorem pairsFrom_length : ∀ (k : Nat) (h : List String),
    (pairsFrom k h).length = h.length / 2 + 1
  | _, [] => by simp [pairsFrom]
  | _, [m] => by simp [pairsFrom]
  | k, m1 :: m2 :: rest => by
      have ih := pairsFrom_length (k + 1) rest
      simp only [pairsFrom, List.length_cons, ih]
      omega

theorem pairsFrom_ne_nil : ∀ (k : Nat) (h : List String), pairsFrom k h ≠ []
  | _, [] => by simp [pairsFrom]
  | _, [m] => by simp [pairsFrom]
  | _, m1 :: m2 :: rest => by simp [pairsFrom]

theorem pairsFrom_getLast : ∀ (k : Nat) (h : List String), h.length % 2 = 0 →
    (pairsFrom k h).getLast? = some ""
  | _, [], _ => rfl
  | _, [m], hpar => by simp at hpar
  | k, m1 :: m2 :: rest, hpar => by
      have hr : rest.length % 2 = 0 := by
        simp only [List.length_cons] at hpar
        omega
      have ih := pairsFrom_getLast (k + 1) rest hr
      rcases e : pairsFrom (k + 1) rest with _ | ⟨x, xs⟩
      · exact absurd e (pairsFrom_ne_nil (k + 1) rest)
      · rw [pairsFrom, e, List.getLast?_cons_cons, ← e, ih]

theorem pairsFrom_getD : ∀ (p k : Nat) (h : List String), 2 * p < h.length →
    (pairsFrom k h).getD p ""
      = toString (k + p) ++ "." ++ " " ++ h.getD (2 * p) ""
        ++ (if 2 * p + 1 < h.length then " " ++ h.getD (2 * p + 1) "" else "")
  | _, _, [], hlt => by simp at hlt
  | 0, k, [m], _ => by
      simp [pairsFrom, String.append_assoc]
  | p + 1, k, [m], hlt => by
      simp at hlt
  | 0, k, m1 :: m2 :: rest, _ => by
      have hc : 2 * 0 + 1 < (m1 :: m2 :: rest).length := by simp
      simp only [pairsFrom, List.getD_cons_zero, Nat.add_zero, if_pos hc]
      simp [String.append_assoc]
  | p + 1, k, m1 :: m2 :: rest, hlt => by
      have hr : 2 * p < rest.length := by
        simp only [List.length_cons] at hlt
        omega
      have ih := pairsFrom_getD p (k + 1) rest hr
      have hk : k + 1 + p = k + (p + 1) := by omega
      have hgd : rest.getD (2 * p) "" = (m1 :: m2 :: rest).getD (2 * (p + 1)) "" := by
        have h2 : 2 * (p + 1) = 2 * p + 1 + 1 := by omega
        rw [h2, List.getD_cons_succ, List.getD_cons_succ]
      have hgd2 : rest.getD (2 * p + 1) "" = (m1 :: m2 :: rest).getD (2 * (p + 1) + 1) "" := by
        have h2 : 2 * (p + 1) + 1 = 2 * p + 1 + 1 + 1 := by omega
        rw [h2, List.getD_cons_succ, List.getD_cons_succ]
      rw [pairsFrom, List.getD_cons_succ, ih, hk, hgd]
      by_cases hc : 2 * p + 1 < rest.length
      · rw [if_pos hc, if_pos (by simp only [List.length_cons]; omega), hgd2]
      · rw [if_neg hc, if_neg (by simp only [List.length_cons]; omega)]

/-! ### Lemmas about the board renderer -/

theorem pieceGlyph_length (p : Piece) : (pieceGlyph p).length = 1 := by
  rcases p with ⟨c, k⟩
  cases c <;> cases k <;> rfl

theorem padCenter3_length (s : String) (h : s.length ≤ 3) : (padCenter3 s).length = 3 := by
  unfold padCenter3
  by_cases h3 : 3 ≤ s.length
  · rw [if_pos h3]
    omega
  · rw [if_neg h3]
    simp only [String.length_append, String.length_mk, List.length_replicate]
    omega

theorem renderCell_text_length (p : Option Piece) (file rank : Nat) :
    (renderCell p file rank).text.length = 3 := by
  rcases p with _ | pc
  · exact padCenter3_length " " (by decide)
  · exact padCenter3_length (pieceGlyph pc) (by rw [pieceGlyph_length]; omega)

theorem foldl_append_length (g : Nat → String) (k : Nat) :
    ∀ (l : List Nat) (acc : String), (∀ i ∈ l, (g i).length = k) →
      (l.foldl (fun a i => a ++ g i) acc).length = acc.length + k * l.length
  | [], acc, _ => by simp
  | i :: rest, acc, hg => by
      have ih := foldl_append_length g k rest (acc ++ g i) (fun j hj => hg j (by simp [hj]))
      simp only [List.foldl_cons, ih, String.length_append, hg i (by simp), List.length_cons]
      ring

theorem rankCells_length (board : Board) (rank : Nat) : (rankCells board rank).length = 24 := by
  have h := foldl_append_length
    (fun file => (renderCell (board (file + rank * 8)) file rank).text) 3 (List.range 8) ""
    (fun i _ => renderCell_text_length _ _ _)
  simpa [rankCells] using h

theorem digit_repr_length (r : Nat) (h : r < 8) : (toString (r + 1)).length = 1 := by
  interval_cases r <;> rfl

theorem rankLine_length (board : Board) (r : Nat) (h : r < 8) :
    (rankLine board r).length = 28 := by
  simp only [rankLine, String.length_append, rankCells_length, digit_repr_length r h]
  rfl

theorem filesLine_length : filesLine.length = 27 := rfl

theorem map_rankLine_lengths (board : Board) :
    ∀ (l : List Nat), (∀ r ∈ l, r < 8) →
      (l.map (rankLine board)).map String.length = List.replicate l.length 28
  | [], _ => rfl
  | r :: rest, hl => by
      have ih := map_rankLine_lengths board rest (fun j hj => hl j (by simp [hj]))
      simp only [List.map_cons, ih, List.length_cons, List.replicate_succ,
        rankLine_length board r (hl r (by simp))]

theorem renderBoardLines_map_length (board : Board) :
    (renderBoardLines board).map String.length = 27 :: List.replicate 8 28 ++ [27] := by
  have h8 : ((List.range 8).reverse.map (rankLine board)).map String.length
      = List.replicate 8 28 := by
    have := map_rankLine_lengths board (List.range 8).reverse
      (fun r hr => List.mem_range.1 (List.mem_reverse.1 hr))
    simpa using this
  simp only [renderBoardLines, List.map_cons, List.map_append, h8, filesLine_length,
    List.map_cons, List.map_nil]

theorem renderBoardLines_length (board : Board) : (renderBoardLines board).length = 10 := by
  simp [renderBoardLines]

theorem renderBoard_length (board : Board) : (renderBoard board).length = 287 := by
  unfold renderBoard
  have h := foldl_append_length (fun rank => rankLine board rank ++ "\n") 29
    (List.range 8).reverse (filesLine ++ "\n")
    (fun r hr => by
      simp only [String.length_append,
        rankLine_length board r (List.mem_range.1 (List.mem_reverse.1 hr))]
      rfl)
  simp only [String.append_assoc] at h ⊢
  rw [String.length_append, h]
  rfl

/-! ### Claim theorems: renderer and history panel -/

/-- C3, counterexample: on the empty board the rendered lines are not all of
equal width — the file-label rows are 27 columns while the rank rows are
28. -/
theorem renderBoard_equal_width_counterexample :
    ¬ (∀ l1 ∈ renderBoardLines (fun _ => none), ∀ l2 ∈ renderBoardLines (fun _ => none),
        l1.length = l2.length) := by
  intro hall
  have h1 : filesLine ∈ renderBoardLines (fun _ => none) := by
    simp [renderBoardLines]
  have h2 : rankLine (fun _ => none) 7 ∈ renderBoardLines (fun _ => none) := by
    unfold renderBoardLines
    refine List.mem_cons_of_mem _ (List.mem_append_left _ (List.mem_map.2 ⟨7, ?_, rfl⟩))
    decide
  have heq := hall _ h1 _ h2
  rw [filesLine_length, rankLine_length _ 7 (by omega)] at heq
  omega

/-- C3, amended: for every position the rendered board consists of exactly
10 lines (8 rank rows between 2 file-label rows); the 8 rank rows all have
width 28 and the 2 file-label rows both have width 27, one column narrower
than the rank rows (the output does not depend on the display width at
all). -/
theorem renderBoard_line_widths (board : Board) :
    (renderBoardLines board).length = 10 ∧
    (renderBoardLines board).map String.length = 27 :: List.replicate 8 28 ++ [27] :=
  ⟨renderBoardLines_length board, renderBoardLines_map_length board⟩

/-- C8: the board renderer is a total pure function of the position: it is
deterministic (equal positions render equally) and always produces
non-empty output, with no error outcome in its type. -/
theorem renderBoard_total_pure (b1 b2 : Board) (h : b1 = b2) :
    renderBoard b1 = renderBoard b2 ∧ renderBoard b1 ≠ "" := by
  refine ⟨by rw [h], fun he => ?_⟩
  have hl := renderBoard_length b1
  rw [he] at hl
  simp at hl

/-- C8 witness: the renderer at the empty board. -/
theorem renderBoard_total_pure_witness :
    renderBoard (fun _ => none) = renderBoard (fun _ => none) ∧
    renderBoard (fun _ => none) ≠ "" :=
  renderBoard_total_pure (fun _ => none) (fun _ => none) rfl

/-- C9: white and black pieces of the same kind render with the same
uppercase letter; the rendered cells differ only in foreground ink (white
ink for white pieces, black ink otherwise), never in text or background
shade. -/
theorem piece_letters_color_blind (k : PieceKind) (file rank : Nat) :
    pieceGlyph ⟨.white, k⟩ = pieceGlyph ⟨.black, k⟩ ∧
    (pieceGlyph ⟨.white, k⟩).length = 1 ∧
    (pieceGlyph ⟨.white, k⟩).data.all Char.isUpper = true ∧
    (renderCell (some ⟨.white, k⟩) file rank).text
      = (renderCell (some ⟨.black, k⟩) file rank).text ∧
    (renderCell (some ⟨.white, k⟩) file rank).shade
      = (renderCell (some ⟨.black, k⟩) file rank).shade ∧
    (renderCell (some ⟨.white, k⟩) file rank).ink = .whiteInk ∧
    (renderCell (some ⟨.black, k⟩) file rank).ink = .blackInk := by
  cases k <;>
    exact ⟨rfl, rfl, by decide, rfl, rfl, rfl, rfl⟩

/-- C5: the history formatter pairs consecutive moves into numbered turns:
the concrete history [e4, e5, Nf3] formats to the lines "1. e4 e5" and
"2. Nf3"; in general the move at index i lands on formatted line i/2
(numbered i/2+1), an even-indexed move starting that line after its turn
number and an odd-indexed move being appended to it. -/
theorem history_pairing (h : List String) (i : Nat) (hi : i < h.length) :
    formatHistory ["e4", "e5", "Nf3"] = ["1. e4 e5", "2. Nf3"] ∧
    (i % 2 = 0 → (formatHistory h).getD (i / 2) ""
        = toString (i / 2 + 1) ++ "." ++ " " ++ h.getD i ""
          ++ (if i + 1 < h.length then " " ++ h.getD (i + 1) "" else "")) ∧
    (i % 2 = 1 → (formatHistory h).getD (i / 2) ""
        = toString (i / 2 + 1) ++ "." ++ " " ++ h.getD (i - 1) "" ++ " " ++ h.getD i "") := by
  refine ⟨by decide, fun heven => ?_, fun hodd => ?_⟩
  · rw [formatHistory_eq_pairsFrom]
    have h2 : 2 * (i / 2) = i := by omega
    have hk : 1 + i / 2 = i / 2 + 1 := by omega
    have := pairsFrom_getD (i / 2) 1 h (by omega)
    rw [h2, hk] at this
    exact this
  · rw [formatHistory_eq_pairsFrom]
    have h2 : 2 * (i / 2) = i - 1 := by omega
    have h3 : 2 * (i / 2) + 1 = i := by omega
    have hk : 1 + i / 2 = i / 2 + 1 := by omega
    have := pairsFrom_getD (i / 2) 1 h (by omega)
    rw [h3] at this
    rw [h2] at this
    rw [hk, if_pos hi] at this
    rw [this]
    simp [String.append_assoc]

/-- C5 witness: the general pairing statement at the concrete history
[e4, e5, Nf3] and index 2. -/
theorem history_pairing_witness :
    formatHistory ["e4", "e5", "Nf3"] = ["1. e4 e5", "2. Nf3"] ∧
    ((2 : Nat) % 2 = 0 → (formatHistory ["e4", "e5", "Nf3"]).getD (2 / 2) ""
        = toString (2 / 2 + 1) ++ "." ++ " " ++ (["e4", "e5", "Nf3"] : List String).getD 2 ""
          ++ (if 2 + 1 < (["e4", "e5", "Nf3"] : List String).length then
                " " ++ (["e4", "e5", "Nf3"] : List String).getD (2 + 1) "" else "")) ∧
    ((2 : Nat) % 2 = 1 → (formatHistory ["e4", "e5", "Nf3"]).getD (2 / 2) ""
        = toString (2 / 2 + 1) ++ "." ++ " " ++ (["e4", "e5", "Nf3"] : List String).getD (2 - 1) ""
          ++ " " ++ (["e4", "e5", "Nf3"] : List String).getD 2 "") :=
  history_pairing ["e4", "e5", "Nf3"] 2 (by decide)

/-- C10: for a history of n moves the formatter always produces exactly
n/2+1 lines, and when n is even and non-zero the last line is the empty
string (a trailing blank line after the numbered turns). -/
theorem history_line_count (h : List String) :
    (formatHistory h).length = h.length / 2 + 1 ∧
    (h.length % 2 = 0 → h.length ≠ 0 → (formatHistory h).getLast? = some "") := by
  rw [formatHistory_eq_pairsFrom]
  exact ⟨pairsFrom_length 1 h, fun hpar _ => pairsFrom_getLast 1 h hpar⟩

/-- C10 witness: the even non-zero history [e4, e5] formats to 2 lines
ending in a blank line. -/
theorem history_line_count_witness :
    (formatHistory ["e4", "e5"]).length = 2 ∧ (formatHistory ["e4", "e5"]).getLast? = some "" :=
  ⟨(history_line_count ["e4", "e5"]).1,
   (history_line_count ["e4", "e5"]).2 (by decide) (by decide)⟩

/-! ### Lemmas about the TUI model -/

theorem run_history_length {P : Type} (o : Oracle P) :
    ∀ (msgs : List Msg) (m : Model P),
      (run o m msgs).history.length = m.history.length + acceptedCount o m msgs
  | [], m => by simp [run, acceptedCount]
  | msg :: rest, m => by
      have ih := run_history_length o rest (update o m msg)
      rw [run, acceptedCount, ih]
      cases msg with
      | keyEnter =>
          cases happ : o.apply m.pos m.textInput.value with
          | ok p2 =>
              simp [update, happ, isAccepted]
              omega
          | error e =>
              simp [update, happ, isAccepted]
      | windowSize w h => simp [update, isAccepted]
      | keyCtrlC => simp [update, isAccepted]
      | keyEsc => simp [update, isAccepted]
      | keyUp => simp [update, isAccepted]
      | keyDown => simp [update, isAccepted]
      | keyPgUp => simp [update, isAccepted]
      | keyPgDown => simp [update, isAccepted]
      | keyChar c => simp [update, isAccepted]
      | keyBackspace => simp [update, isAccepted]

theorem push_charLimit (ti : TextInput) (c : Char) : (ti.push c).charLimit = ti.charLimit := by
  unfold TextInput.push
  split <;> rfl

theorem update_charLimit {P : Type} (o : Oracle P) (m : Model P) (msg : Msg) :
    (update o m msg).textInput.charLimit = m.textInput.charLimit := by
  cases msg with
  | keyEnter =>
      unfold update
      cases happ : o.apply m.pos m.textInput.value <;> simp [TextInput.reset]
  | keyChar c => exact push_charLimit m.textInput c
  | keyBackspace => rfl
  | windowSize w h => rfl
  | keyCtrlC => rfl
  | keyEsc => rfl
  | keyUp => rfl
  | keyDown => rfl
  | keyPgUp => rfl
  | keyPgDown => rfl

theorem length_push (s : String) (c : Char) : (s.push c).length = s.length + 1 := by
  simp

theorem backspace_length (ti : TextInput) :
    (TextInput.backspace ti).value.length = ti.value.length - 1 := by
  show (String.mk ti.value.data.dropLast).length = ti.value.length - 1
  rw [String.length_mk, List.length_dropLast]
  rfl

theorem update_value_le {P : Type} (o : Oracle P) (m : Model P) (msg : Msg)
    (h : m.textInput.value.length ≤ m.textInput.charLimit) :
    (update o m msg).textInput.value.length ≤ (update o m msg).textInput.charLimit := by
  rw [update_charLimit]
  cases msg with
  | keyEnter =>
      unfold update
      cases happ : o.apply m.pos m.textInput.value with
      | ok p2 => simp [TextInput.reset]
      | error e => simpa using h
  | keyChar c =>
      show (m.textInput.push c).value.length ≤ m.textInput.charLimit
      unfold TextInput.push
      split
      · rename_i hlt
        simp only [length_push]
        omega
      · exact h
  | keyBackspace =>
      show (m.textInput.backspace).value.length ≤ m.textInput.charLimit
      rw [backspace_length]
      omega
  | windowSize w hh => exact h
  | keyCtrlC => exact h
  | keyEsc => exact h
  | keyUp => exact h
  | keyDown => exact h
  | keyPgUp => exact h
  | keyPgDown => exact h

theorem run_charLimit {P : Type} (o : Oracle P) :
    ∀ (msgs : List Msg) (m : Model P),
      (run o m msgs).textInput.charLimit = m.textInput.charLimit
  | [], _ => rfl
  | msg :: rest, m => by
      rw [run, run_charLimit o rest (update o m msg), update_charLimit]

theorem run_value_le {P : Type} (o : Oracle P) :
    ∀ (msgs : List Msg) (m : Model P),
      m.textInput.value.length ≤ m.textInput.charLimit →
      (run o m msgs).textInput.value.length ≤ (run o m msgs).textInput.charLimit
  | [], _, h => h
  | msg :: rest, m, h => by
      rw [run]
      exact run_value_le o rest (update o m msg) (update_value_le o m msg h)

/-- A trivial rules oracle over the one-point position type that accepts
every move; used to instantiate the universally quantified theorems at a
concrete input. -/
def unitAccept : Oracle Unit :=
  { apply := fun p _ => .ok p, outcome := fun _ => .noOutcome }

/-- A trivial rules oracle that rejects every move with a fixed non-empty
message. -/
def unitReject : Oracle Unit :=
  { apply := fun _ _ => .error "chess: invalid move", outcome := fun _ => .noOutcome }

/-- A trivial rules oracle whose game is already drawn and which rejects
every move, as the spec requires of a terminal outcome. -/
def unitDone : Oracle Unit :=
  { apply := fun _ _ => .error "game over", outcome := fun _ => .draw }

/-! ### Claim theorems: input handling and game loop -/

/-- C1: submitting a syntactically invalid move (one the oracle rejects)
leaves the position unchanged, records the oracle's non-empty error
message, and preserves the input buffer and the move history; in the stdin
variant the loop likewise continues on the unchanged game. -/
theorem invalid_move_preserves_state {P : Type} (o : Oracle P) (m : Model P) (e : String)
    (happ : o.apply m.pos m.textInput.value = .error e) (hne : e ≠ "")
    (g : P) (input : String) (rest : List String) (e2 : String)
    (hout : o.outcome g = .noOutcome) (happ2 : o.apply g input.trim = .error e2) :
    ((update o m .keyEnter).pos = m.pos ∧
     (update o m .keyEnter).error = some e ∧ e ≠ "" ∧
     (update o m .keyEnter).textInput = m.textInput ∧
     (update o m .keyEnter).history = m.history) ∧
    runStdin o g (input :: rest) = runStdin o g rest := by
  constructor
  · refine ⟨?_, ?_, hne, ?_, ?_⟩ <;> simp [update, happ]
  · rw [runStdin, if_pos hout, happ2]

/-- C1 witness: the always-rejecting oracle on the initial model. -/
theorem invalid_move_preserves_state_witness :
    ((update unitReject (initialModel ()) .keyEnter).pos = (initialModel ()).pos ∧
     (update unitReject (initialModel ()) .keyEnter).error = some "chess: invalid move" ∧
     ("chess: invalid move" : String) ≠ "" ∧
     (update unitReject (initialModel ()) .keyEnter).textInput = (initialModel ()).textInput ∧
     (update unitReject (initialModel ()) .keyEnter).history = (initialModel ()).history) ∧
    runStdin unitReject () ("e9" :: []) = runStdin unitReject () [] :=
  invalid_move_preserves_state unitReject (initialModel ()) "chess: invalid move" rfl
    (by decide) () "e9" [] "chess: invalid move" rfl rfl

/-- C2: once the outcome is terminal no further submission is accepted
(the oracle, per the spec, rejects every move in a terminal position): an
Enter in the TUI leaves position and history unchanged, and the stdin loop
returns the game unchanged whatever input remains. -/
theorem terminal_submission_noop {P : Type} (o : Oracle P) (m : Model P) (g : P)
    (inputs : List String)
    (hrej : ∀ p s, o.outcome p ≠ .noOutcome → ∃ e, o.apply p s = .error e)
    (hm : o.outcome m.pos ≠ .noOutcome) (hg : o.outcome g ≠ .noOutcome) :
    ((update o m .keyEnter).pos = m.pos ∧ (update o m .keyEnter).history = m.history) ∧
    runStdin o g inputs = g := by
  constructor
  · obtain ⟨e, he⟩ := hrej m.pos m.textInput.value hm
    constructor <;> simp [update, he]
  · cases inputs with
    | nil => rfl
    | cons i rest => rw [runStdin, if_neg hg]

/-- C2 witness: the drawn-game oracle on the initial model and one pending
input line. -/
theorem terminal_submission_noop_witness :
    ((update unitDone (initialModel ()) .keyEnter).pos = (initialModel ()).pos ∧
     (update unitDone (initialModel ()) .keyEnter).history = (initialModel ()).history) ∧
    runStdin unitDone () ["e4"] = () :=
  terminal_submission_noop unitDone (initialModel ()) () ["e4"]
    (fun _ _ _ => ⟨"game over", rfl⟩) (by decide) (by decide)

/-- C4: submitting a legal move clears the input buffer, clears the error
message, appends exactly the submitted move string to the history and
advances the position; consequently, along any message trace the history
length equals the initial length plus the number of accepted submissions. -/
theorem legal_move_accepted {P : Type} (o : Oracle P) (m : Model P) (p2 : P)
    (happ : o.apply m.pos m.textInput.value = .ok p2) (msgs : List Msg) :
    ((update o m .keyEnter).textInput.value = "" ∧
     (update o m .keyEnter).error = none ∧
     (update o m .keyEnter).history = m.history ++ [m.textInput.value] ∧
     (update o m .keyEnter).pos = p2) ∧
    (run o m msgs).history.length = m.history.length + acceptedCount o m msgs :=
  ⟨by refine ⟨?_, ?_, ?_, ?_⟩ <;> simp [update, happ, TextInput.reset],
   run_history_length o msgs m⟩

/-- C4 witness: the always-accepting oracle, one Enter message. -/
theorem legal_move_accepted_witness :
    ((update unitAccept (initialModel ()) .keyEnter).textInput.value = "" ∧
     (update unitAccept (initialModel ()) .keyEnter).error = none ∧
     (update unitAccept (initialModel ()) .keyEnter).history
       = (initialModel ()).history ++ [(initialModel ()).textInput.value] ∧
     (update unitAccept (initialModel ()) .keyEnter).pos = ()) ∧
    (run unitAccept (initialModel ()) [.keyEnter]).history.length
      = (initialModel ()).history.length + acceptedCount unitAccept (initialModel ()) [.keyEnter] :=
  legal_move_accepted unitAccept (initialModel ()) () rfl [.keyEnter]

/-- C6: in every state reachable from the initial model the input buffer
never exceeds the configured limit of 4 characters, and a keystroke pushed
at a full buffer leaves the buffer unchanged. -/
theorem input_buffer_bounded {P : Type} (o : Oracle P) (start : P) (msgs : List Msg)
    (ti : TextInput) (c : Char) (hfull : ti.charLimit ≤ ti.value.length) :
    (run o (initialModel start) msgs).textInput.value.length ≤ 4 ∧ ti.push c = ti := by
  constructor
  · have h1 := run_value_le o msgs (initialModel start) (by simp [initialModel])
    have h2 := run_charLimit o msgs (initialModel start)
    rw [h2] at h1
    simpa [initialModel] using h1
  · unfold TextInput.push
    rw [if_neg (by omega)]

/-- C6 witness: a five-keystroke trace from the initial model, and a push
at a full four-character buffer. -/
theorem input_buffer_bounded_witness :
    (run unitAccept (initialModel ())
        [.keyChar 'e', .keyChar '2', .keyChar 'e', .keyChar '4', .keyChar 'x']
      ).textInput.value.length ≤ 4 ∧
    TextInput.push { value := "e2e4", charLimit := 4 } 'x' = { value := "e2e4", charLimit := 4 } :=
  input_buffer_bounded unitAccept ()
    [.keyChar 'e', .keyChar '2', .keyChar 'e', .keyChar '4', .keyChar 'x']
    { value := "e2e4", charLimit := 4 } 'x' (by decide)

/-- C7: a backspace on an empty input buffer is a no-op (the buffer stays
empty), and on any buffer the backspace operation is total and never
underflows: the resulting length is the truncated predecessor. -/
theorem backspace_empty_noop {P : Type} (o : Oracle P) (m : Model P)
    (hempty : m.textInput.value = "") (ti : TextInput) :
    (update o m .keyBackspace).textInput.value = "" ∧
    (TextInput.backspace ti).value.length = ti.value.length - 1 := by
  constructor
  · show (m.textInput.backspace).value = ""
    rw [TextInput.backspace, hempty]
    rfl
  · exact backspace_length ti

/-- C7 witness: a backspace on the initial (empty) buffer, and the length
law at a two-character buffer. -/
theorem backspace_empty_noop_witness :
    (update unitReject (initialModel ()) .keyBackspace).textInput.value = "" ∧
    (TextInput.backspace { value := "e4", charLimit := 4 }).value.length
      = (String.length "e4") - 1 :=
  backspace_empty_noop unitReject (initialModel ()) rfl { value := "e4", charLimit := 4 }

end GoChess
